import Mathlib

/-!
Formal model of exocaster's core concurrent components, as a shallow
embedding in Lean 4:

* `RingBuffer` models `exo::RingBuffer<T>` from `src/buffer.hh`:
  a vector of `size + 1` slots with `head`/`tail` indices and a `closed`
  flag.  The blocking loops (`readFull`, `writeFull`, `skipFull`,
  `writeTimed`) are modelled under a sequential (single-thread)
  semantics: a condition-variable wait whose predicate is false with no
  concurrent actor to change it blocks forever, which the model encodes
  as `none`.  Loops take an explicit `fuel` bound on iterations; every
  theorem below proves a `some` result, so fuel adequacy is part of what
  is proved.  Machine `size_t` arithmetic appears only in index
  computations where the source guarantees no wrap (comments note each
  spot).

* `PacketHeader` / packet operations model `src/packet.hh`.  The source
  `memcpy`s the trivially-copyable header into `sizeof(PacketHeader)`
  bytes of the byte ring and back; the model uses an explicit injective
  encoding `encodeHeader` of fixed length `HSIZE` with
  `decodeHeader (encodeHeader h) = h`, which captures exactly the
  round-trip property the source relies on.

* `PcmBuffer` models `src/pcmbuffer.cc` / `.hh`.  The frame-pacing
  clock (`fclock.hh`) is wall-clock state with no effect on the byte
  accounting and is not part of the model; `writePcm` is modelled for
  the `skip_ = false` configuration (the `skip_ = true` path calls the
  wall-clock `writeTimed` with a future deadline, which has no
  sequential semantics).

* `Barrier` models `src/barrier.cc` up to the point where a caller
  either returns or enters the condition-variable wait.

* The publisher event conversion models `src/publisher.cc`; a separate
  `BrocaSpec` namespace holds the part of the publisher that the
  repository's `broca/broca.hh` calls but whose definition is absent
  from the sources, modelled from the specification's words.
-/

namespace Exo

/-- Memcpy of `xs` into list `l` at offset `i` (overwrites, length is
preserved whenever `i + xs.length ≤ l.length`). -/
def writeAt (l : List α) (i : Nat) (xs : List α) : List α :=
  l.take i ++ xs ++ l.drop (i + xs.length)

/-- State of `exo::RingBuffer<T>`: `buffer_` (a vector of `size_ + 1`
slots), `size_`, `head_`, `tail_`, `closed_`.  Reads in the source move
elements out but never hand the same slot to a reader twice before it is
overwritten, so the model leaves slot contents in place. -/
structure RingBuffer (α : Type) where
  buffer : List α
  size : Nat
  head : Nat
  tail : Nat
  closed : Bool
  deriving Repr, DecidableEq

/-- The constructor `RingBuffer(size)`: `size + 1` default-constructed
slots, `head_ = tail_ = 0`, open. -/
def mkRingBuffer (size : Nat) (fill : α) : RingBuffer α :=
  ⟨List.replicate (size + 1) fill, size, 0, 0, false⟩

/-- Well-formedness maintained by the source: the vector has `size + 1`
slots and both indices stay inside it. -/
def RingBuffer.WF (st : RingBuffer α) : Prop :=
  st.buffer.length = st.size + 1 ∧ st.head ≤ st.size ∧ st.tail ≤ st.size

instance (st : RingBuffer α) : Decidable st.WF := by
  unfold RingBuffer.WF; infer_instance

/-- `lockedToRead_()`: occupancy.  The source computes
`head_ - tail_ + buffer_.size()` in `size_t` when `head_ < tail_`; the
subtraction wraps and the addition wraps back, giving
`head + buffer.length - tail`. -/
def lockedToRead (st : RingBuffer α) : Nat :=
  if st.head < st.tail then st.head + st.buffer.length - st.tail
  else st.head - st.tail

/-- `lockedToWrite_()`: free space `size_ - lockedToRead_()`. -/
def lockedToWrite (st : RingBuffer α) : Nat :=
  st.size - lockedToRead st

/-- `canRead_()`: `head_ != tail_`. -/
def canRead (st : RingBuffer α) : Prop := st.head ≠ st.tail

instance (st : RingBuffer α) : Decidable (canRead st) := by
  unfold canRead; infer_instance

/-- `canWrite_()`: `(head_ + 1) % buffer_.size() != tail_`. -/
def canWrite (st : RingBuffer α) : Prop :=
  (st.head + 1) % st.buffer.length ≠ st.tail

instance (st : RingBuffer α) : Decidable (canWrite st) := by
  unfold canWrite; infer_instance

/-- The queue of elements currently in the buffer, oldest first:
the slots from `tail_` up to (cyclically) `head_`. -/
def contents (st : RingBuffer α) : List α :=
  if st.head < st.tail then st.buffer.drop st.tail ++ st.buffer.take st.head
  else (st.buffer.drop st.tail).take (st.head - st.tail)

/-- `lockedMoveFromBuffer_(d_first, count)`: reads
`min count (lockedToRead)` elements starting at `tail_`, in at most two
contiguous runs, and advances `tail_`.  Returns (elements read, their
number, new state). -/
def lockedMoveFromBuffer (st : RingBuffer α) (count : Nat) :
    List α × Nat × RingBuffer α :=
  let totalRead := min count (lockedToRead st)
  if totalRead = 0 then ([], 0, st)
  else
    let sliver := st.buffer.length - st.tail
    if totalRead ≤ sliver then
      ((st.buffer.drop st.tail).take totalRead, totalRead,
       { st with tail := if totalRead = sliver then 0 else st.tail + totalRead })
    else
      (st.buffer.drop st.tail ++ st.buffer.take (totalRead - sliver), totalRead,
       { st with tail := totalRead - sliver })

/-- `lockedSkipFromBuffer_(count)`: same tail arithmetic as
`lockedMoveFromBuffer_`, discarding the values. -/
def lockedSkipFromBuffer (st : RingBuffer α) (count : Nat) :
    Nat × RingBuffer α :=
  let totalRead := min count (lockedToRead st)
  if totalRead = 0 then (0, st)
  else
    let sliver := st.buffer.length - st.tail
    if totalRead ≤ sliver then
      (totalRead,
       { st with tail := if totalRead = sliver then 0 else st.tail + totalRead })
    else
      (totalRead, { st with tail := totalRead - sliver })

/-- `lockedXferToBuffer_(first, count)`: writes
`min count (lockedToWrite)` elements from `src` starting at `head_`, in
at most two contiguous runs, and advances `head_`.  Covers both the copy
and the move variant (the distinction has no effect on values). -/
def lockedXferToBuffer (st : RingBuffer α) (src : List α) (count : Nat) :
    Nat × RingBuffer α :=
  let totalWrite := min count (lockedToWrite st)
  if totalWrite = 0 then (0, st)
  else
    let sliver := st.buffer.length - st.head
    if totalWrite ≤ sliver then
      (totalWrite,
       { st with
          buffer := writeAt st.buffer st.head (src.take totalWrite),
          head := if totalWrite = sliver then 0 else st.head + totalWrite })
    else
      (totalWrite,
       { st with
          buffer := writeAt (writeAt st.buffer st.head (src.take sliver)) 0
            ((src.drop sliver).take (totalWrite - sliver)),
          head := totalWrite - sliver })

theorem lockedToRead_le_size {st : RingBuffer α} (hwf : st.WF) :
    lockedToRead st ≤ st.size := by
  obtain ⟨hlen, hh, ht⟩ := hwf
  unfold lockedToRead
  split <;> omega

theorem contents_length {st : RingBuffer α} (hwf : st.WF) :
    (contents st).length = lockedToRead st := by
  obtain ⟨hlen, hh, ht⟩ := hwf
  unfold contents lockedToRead
  split <;> simp [List.length_take, List.length_drop] <;> omega

theorem contents_eq_nil {st : RingBuffer α} (hwf : st.WF)
    (h : lockedToRead st = 0) : contents st = [] := by
  have := contents_length hwf
  exact List.eq_nil_of_length_eq_zero (by omega)

theorem canRead_iff {st : RingBuffer α} (hwf : st.WF) :
    canRead st ↔ 0 < lockedToRead st := by
  obtain ⟨hlen, hh, ht⟩ := hwf
  unfold canRead lockedToRead
  split <;> omega

theorem canWrite_iff {st : RingBuffer α} (hwf : st.WF) :
    canWrite st ↔ lockedToRead st < st.size := by
  obtain ⟨hlen, hh, ht⟩ := hwf
  unfold canWrite lockedToRead
  have hmod : (st.head + 1) % st.buffer.length =
      if st.head + 1 = st.buffer.length then 0 else st.head + 1 := by
    split
    · simp_all
    · exact Nat.mod_eq_of_lt (by omega)
  rw [hmod]
  split <;> split <;> omega

theorem writeAt_length {l xs : List α} {i : Nat} (h : i + xs.length ≤ l.length) :
    (writeAt l i xs).length = l.length := by
  unfold writeAt
  simp only [List.length_append, List.length_take, List.length_drop]
  omega

theorem drop_writeAt_self {l xs : List α} {i : Nat} (h : i ≤ l.length) :
    (writeAt l i xs).drop i = xs ++ l.drop (i + xs.length) := by
  unfold writeAt
  rw [List.append_assoc]
  exact List.drop_left' (by simp only [List.length_take]; omega)

theorem drop_writeAt_of_le {l xs : List α} {i t : Nat} (h : t ≤ i)
    (hi : i ≤ l.length) :
    (writeAt l i xs).drop t =
      (l.drop t).take (i - t) ++ xs ++ l.drop (i + xs.length) := by
  unfold writeAt
  rw [List.append_assoc,
    List.drop_append_of_le_length (by simp only [List.length_take]; omega),
    List.drop_take, ← List.append_assoc]

theorem drop_writeAt_of_ge {l xs : List α} {i t : Nat}
    (h : i + xs.length ≤ t) (hi : i ≤ l.length) :
    (writeAt l i xs).drop t = l.drop t := by
  unfold writeAt
  rw [List.drop_append_eq_append_drop,
    List.drop_eq_nil_of_le
      (by simp only [List.length_append, List.length_take]; omega),
    List.nil_append, List.drop_drop]
  congr 1
  simp only [List.length_append, List.length_take]
  omega

theorem take_writeAt_of_le {l xs : List α} {i t : Nat} (h : t ≤ i)
    (hi : i ≤ l.length) :
    (writeAt l i xs).take t = l.take t := by
  unfold writeAt
  rw [List.append_assoc,
    List.take_append_of_le_length (by simp only [List.length_take]; omega),
    List.take_take, Nat.min_eq_left h]

theorem writeAt_zero {l xs : List α} :
    writeAt l 0 xs = xs ++ l.drop xs.length := by
  unfold writeAt
  simp

theorem lockedXferToBuffer_spec {st : RingBuffer α} (src : List α)
    (count : Nat) (hwf : st.WF) (hsrc : count ≤ src.length) :
    (lockedXferToBuffer st src count).1 = min count (lockedToWrite st) ∧
    (lockedXferToBuffer st src count).2.WF ∧
    (lockedXferToBuffer st src count).2.size = st.size ∧
    (lockedXferToBuffer st src count).2.tail = st.tail ∧
    (lockedXferToBuffer st src count).2.closed = st.closed ∧
    lockedToRead (lockedXferToBuffer st src count).2
      = lockedToRead st + min count (lockedToWrite st) ∧
    contents (lockedXferToBuffer st src count).2
      = contents st ++ src.take (min count (lockedToWrite st)) := by
  obtain ⟨hlen, hh, ht⟩ := hwf
  have hwrw : lockedToWrite st = st.size - lockedToRead st := rfl
  have hcc : min count (lockedToWrite st) + lockedToRead st ≤ st.size := by
    have h1 := Nat.min_le_right count (lockedToWrite st)
    have h2 := lockedToRead_le_size ⟨hlen, hh, ht⟩
    omega
  have hccif := hcc
  unfold lockedToRead at hccif
  have hnsrc : min count (lockedToWrite st) ≤ src.length :=
    le_trans (Nat.min_le_left _ _) hsrc
  have hsrctn : (src.take (min count (lockedToWrite st))).length
      = min count (lockedToWrite st) := by
    simp only [List.length_take]; omega
  by_cases h0 : min count (lockedToWrite st) = 0
  · have hstep : lockedXferToBuffer st src count = (0, st) := by
      simp only [lockedXferToBuffer]
      rw [if_pos h0]
    rw [hstep]
    exact ⟨h0.symm, ⟨hlen, hh, ht⟩, rfl, rfl, rfl, by dsimp only; omega,
      by simp [h0]⟩
  · by_cases hsl : min count (lockedToWrite st)
        ≤ st.buffer.length - st.head
    · have hlA : (writeAt st.buffer st.head
          (src.take (min count (lockedToWrite st)))).length
          = st.buffer.length :=
        writeAt_length (by simp only [List.length_take]; omega)
      by_cases hful : min count (lockedToWrite st)
          = st.buffer.length - st.head
      · -- the write exactly reaches the end of the vector: head_ wraps to 0
        have hstep : lockedXferToBuffer st src count
            = (min count (lockedToWrite st),
               { st with
                  buffer := writeAt st.buffer st.head
                    (src.take (min count (lockedToWrite st))),
                  head := 0 }) := by
          simp only [lockedXferToBuffer]
          rw [if_neg h0, if_pos hsl, if_pos hful]
        rw [hstep]
        have hge : st.tail ≤ st.head := by
          rcases Nat.lt_or_ge st.head st.tail with hlt | hge
          · rw [if_pos hlt] at hccif; omega
          · exact hge
        have htail0 : 0 < st.tail := by
          rw [if_neg (Nat.not_lt.mpr hge)] at hccif; omega
        refine ⟨rfl, ⟨by dsimp only; rw [hlA]; exact hlen, by dsimp only; omega,
          by dsimp only; omega⟩, rfl, rfl, rfl, ?_, ?_⟩
        · unfold lockedToRead
          dsimp only
          rw [hlA]
          split_ifs at hccif ⊢ <;> omega
        · unfold contents
          dsimp only
          rw [if_pos htail0, if_neg (Nat.not_lt.mpr hge)]
          rw [drop_writeAt_of_le hge (by omega), hsrctn,
            show st.head + min count (lockedToWrite st) = st.buffer.length by
              omega,
            List.drop_length]
          simp
      · -- the write stays inside the vector: head_ advances by totalWrite
        have hstep : lockedXferToBuffer st src count
            = (min count (lockedToWrite st),
               { st with
                  buffer := writeAt st.buffer st.head
                    (src.take (min count (lockedToWrite st))),
                  head := st.head + min count (lockedToWrite st) }) := by
          simp only [lockedXferToBuffer]
          rw [if_neg h0, if_pos hsl, if_neg hful]
        rw [hstep]
        refine ⟨rfl, ⟨by dsimp only; rw [hlA]; exact hlen, by dsimp only; omega,
          by dsimp only; omega⟩, rfl, rfl, rfl, ?_, ?_⟩
        · unfold lockedToRead
          dsimp only
          rw [hlA]
          split_ifs at hccif ⊢ <;> omega
        · unfold contents
          dsimp only
          rcases Nat.lt_or_ge st.head st.tail with hlt | hge
          · rw [if_pos hlt] at hccif
            have hlt2 : st.head + min count (lockedToWrite st) < st.tail := by
              omega
            rw [if_pos hlt2, if_pos hlt,
              drop_writeAt_of_ge (by rw [hsrctn]; omega) (by omega)]
            unfold writeAt
            rw [List.take_left'
              (by simp only [List.length_append, List.length_take]; omega)]
            simp [List.append_assoc]
          · rw [if_neg (Nat.not_lt.mpr hge)] at hccif
            have hge2 : ¬ st.head + min count (lockedToWrite st) < st.tail := by
              omega
            rw [if_neg hge2, if_neg (Nat.not_lt.mpr hge),
              drop_writeAt_of_le hge (by omega), hsrctn,
              List.take_left'
                (by simp only [List.length_append, List.length_take,
                  List.length_drop]; omega)]
    · -- the write wraps: a run up to the end of the vector, then one from 0
      have hge : st.tail ≤ st.head := by
        rcases Nat.lt_or_ge st.head st.tail with hlt | hge
        · rw [if_pos hlt] at hccif; omega
        · exact hge
      rw [if_neg (Nat.not_lt.mpr hge)] at hccif
      have hslen : (src.take (st.buffer.length - st.head)).length
          = st.buffer.length - st.head := by
        simp only [List.length_take]; omega
      have hlI : (writeAt st.buffer st.head
          (src.take (st.buffer.length - st.head))).length
          = st.buffer.length :=
        writeAt_length (by rw [hslen]; omega)
      have hlb : ((src.drop (st.buffer.length - st.head)).take
            (min count (lockedToWrite st) - (st.buffer.length - st.head))).length
          = min count (lockedToWrite st) - (st.buffer.length - st.head) := by
        simp only [List.length_take, List.length_drop]; omega
      have hlB : (writeAt (writeAt st.buffer st.head
            (src.take (st.buffer.length - st.head))) 0
            ((src.drop (st.buffer.length - st.head)).take
              (min count (lockedToWrite st) - (st.buffer.length - st.head)))).length
          = st.buffer.length := by
        rw [writeAt_length (by rw [hlI, hlb]; omega), hlI]
      have hstep : lockedXferToBuffer st src count
          = (min count (lockedToWrite st),
             { st with
                buffer := writeAt (writeAt st.buffer st.head
                  (src.take (st.buffer.length - st.head))) 0
                  ((src.drop (st.buffer.length - st.head)).take
                    (min count (lockedToWrite st)
                      - (st.buffer.length - st.head))),
                head := min count (lockedToWrite st)
                  - (st.buffer.length - st.head) }) := by
        simp only [lockedXferToBuffer]
        rw [if_neg h0, if_neg hsl]
      rw [hstep]
      have hhd : min count (lockedToWrite st) - (st.buffer.length - st.head)
          < st.tail := by omega
      refine ⟨rfl, ⟨by dsimp only; rw [hlB]; exact hlen, by dsimp only; omega,
        by dsimp only; omega⟩, rfl, rfl, rfl, ?_, ?_⟩
      · unfold lockedToRead
        dsimp only
        rw [hlB]
        split_ifs <;> omega
      · unfold contents
        dsimp only
        rw [if_pos hhd, if_neg (Nat.not_lt.mpr hge), writeAt_zero,
          List.take_left' hlb, List.drop_append_eq_append_drop,
          List.drop_eq_nil_of_le (by rw [hlb]; omega), List.nil_append,
          List.drop_drop, hlb,
          show min count (lockedToWrite st) - (st.buffer.length - st.head)
              + (st.tail - (min count (lockedToWrite st)
                - (st.buffer.length - st.head))) = st.tail by omega,
          drop_writeAt_of_le hge (by omega), hslen,
          show st.head + (st.buffer.length - st.head) = st.buffer.length by
            omega,
          List.drop_length,
          show min count (lockedToWrite st) = (st.buffer.length - st.head)
              + (min count (lockedToWrite st) - (st.buffer.length - st.head))
            by omega,
          List.take_add]
        simp [List.append_assoc]

theorem lockedMoveFromBuffer_spec {st : RingBuffer α} (count : Nat)
    (hwf : st.WF) :
    (lockedMoveFromBuffer st count).2.1 = min count (lockedToRead st) ∧
    (lockedMoveFromBuffer st count).1
      = (contents st).take (min count (lockedToRead st)) ∧
    (lockedMoveFromBuffer st count).2.2.WF ∧
    (lockedMoveFromBuffer st count).2.2.buffer = st.buffer ∧
    (lockedMoveFromBuffer st count).2.2.size = st.size ∧
    (lockedMoveFromBuffer st count).2.2.head = st.head ∧
    (lockedMoveFromBuffer st count).2.2.closed = st.closed ∧
    lockedToRead (lockedMoveFromBuffer st count).2.2
      = lockedToRead st - min count (lockedToRead st) ∧
    contents (lockedMoveFromBuffer st count).2.2
      = (contents st).drop (min count (lockedToRead st)) := by
  obtain ⟨hlen, hh, ht⟩ := hwf
  have hcr : min count (lockedToRead st) ≤ lockedToRead st :=
    Nat.min_le_right _ _
  have hoccle := lockedToRead_le_size (⟨hlen, hh, ht⟩ : st.WF)
  have hoccrw : lockedToRead st = (if st.head < st.tail then
      st.head + st.buffer.length - st.tail else st.head - st.tail) := rfl
  by_cases h0 : min count (lockedToRead st) = 0
  · have hstep : lockedMoveFromBuffer st count = ([], 0, st) := by
      simp only [lockedMoveFromBuffer]
      rw [if_pos h0]
    rw [hstep]
    exact ⟨h0.symm, by simp [h0], ⟨hlen, hh, ht⟩, rfl, rfl, rfl, rfl,
      by dsimp only; omega, by simp [h0]⟩
  · by_cases hsl : min count (lockedToRead st)
        ≤ st.buffer.length - st.tail
    · by_cases hful : min count (lockedToRead st)
          = st.buffer.length - st.tail
      · -- the read exactly reaches the end of the vector: tail_ wraps to 0
        have hstep : lockedMoveFromBuffer st count
            = ((st.buffer.drop st.tail).take (min count (lockedToRead st)),
               min count (lockedToRead st), { st with tail := 0 }) := by
          simp only [lockedMoveFromBuffer]
          rw [if_neg h0, if_pos hsl, if_pos hful]
        rw [hstep]
        have hlt : st.head < st.tail := by
          rcases Nat.lt_or_ge st.head st.tail with hlt | hge
          · exact hlt
          · rw [if_neg (Nat.not_lt.mpr hge)] at hoccrw; omega
        rw [if_pos hlt] at hoccrw
        have hdlen : (st.buffer.drop st.tail).length
            = min count (lockedToRead st) := by
          rw [List.length_drop]; omega
        refine ⟨rfl, ?_, ⟨hlen, hh, by dsimp only; omega⟩, rfl, rfl, rfl, rfl,
          ?_, ?_⟩
        · unfold contents
          rw [if_pos hlt,
            List.take_append_of_le_length (by rw [List.length_drop]; omega)]
        · unfold lockedToRead
          dsimp only
          rw [if_neg (show ¬ st.head < 0 by omega), if_pos hlt]
          omega
        · unfold contents
          dsimp only
          rw [if_neg (show ¬ st.head < 0 by omega), if_pos hlt,
            List.drop_left' hdlen]
          simp
      · -- the read stays inside the vector: tail_ advances by totalRead
        have hstep : lockedMoveFromBuffer st count
            = ((st.buffer.drop st.tail).take (min count (lockedToRead st)),
               min count (lockedToRead st),
               { st with tail := st.tail + min count (lockedToRead st) }) := by
          simp only [lockedMoveFromBuffer]
          rw [if_neg h0, if_pos hsl, if_neg hful]
        rw [hstep]
        refine ⟨rfl, ?_, ⟨hlen, hh,
          by dsimp only; split_ifs at hoccrw <;> omega⟩, rfl, rfl, rfl, rfl,
          ?_, ?_⟩
        · unfold contents
          rcases Nat.lt_or_ge st.head st.tail with hlt | hge
          · rw [if_pos hlt,
              List.take_append_of_le_length (by rw [List.length_drop]; omega)]
          · rw [if_neg (Nat.not_lt.mpr hge)] at hoccrw
            rw [if_neg (Nat.not_lt.mpr hge), List.take_take,
              Nat.min_eq_left (show min count (lockedToRead st)
                ≤ st.head - st.tail by omega)]
        · unfold lockedToRead
          dsimp only
          split_ifs at hoccrw ⊢ <;> omega
        · unfold contents
          dsimp only
          rcases Nat.lt_or_ge st.head st.tail with hlt | hge
          · rw [if_pos hlt] at hoccrw
            rw [if_pos (show st.head < st.tail
                  + min count (lockedToRead st) by omega), if_pos hlt,
              List.drop_append_of_le_length (by rw [List.length_drop]; omega),
              List.drop_drop]
          · rw [if_neg (Nat.not_lt.mpr hge)] at hoccrw
            rw [if_neg (show ¬ st.head < st.tail
                  + min count (lockedToRead st) by omega),
              if_neg (Nat.not_lt.mpr hge), List.drop_take, List.drop_drop]
            congr 1
            omega
    · -- the read wraps: a run up to the end of the vector, then one from 0
      have hlt : st.head < st.tail := by
        rcases Nat.lt_or_ge st.head st.tail with hlt | hge
        · exact hlt
        · rw [if_neg (Nat.not_lt.mpr hge)] at hoccrw; omega
      rw [if_pos hlt] at hoccrw
      have hstep : lockedMoveFromBuffer st count
          = (st.buffer.drop st.tail ++ st.buffer.take
               (min count (lockedToRead st)
                 - (st.buffer.length - st.tail)),
             min count (lockedToRead st),
             { st with tail := min count (lockedToRead st)
                 - (st.buffer.length - st.tail) }) := by
        simp only [lockedMoveFromBuffer]
        rw [if_neg h0, if_neg hsl]
      rw [hstep]
      refine ⟨rfl, ?_, ⟨hlen, hh, by dsimp only; omega⟩, rfl, rfl, rfl, rfl,
        ?_, ?_⟩
      · have hcont : contents st
            = st.buffer.drop st.tail ++ st.buffer.take st.head := by
          unfold contents
          rw [if_pos hlt]
        conv_rhs => rw [hcont, List.take_append_eq_append_take,
          List.take_of_length_le (by rw [List.length_drop]; omega),
          List.length_drop, List.take_take,
          Nat.min_eq_left (show min count (lockedToRead st)
            - (st.buffer.length - st.tail) ≤ st.head by omega)]
      · unfold lockedToRead
        dsimp only
        split_ifs <;> omega
      · unfold contents
        dsimp only
        rw [if_neg (show ¬ st.head < min count (lockedToRead st)
            - (st.buffer.length - st.tail) by omega), if_pos hlt]
        conv_rhs => rw [List.drop_append_eq_append_drop,
          List.drop_eq_nil_of_le (by rw [List.length_drop]; omega),
          List.nil_append, List.length_drop, List.drop_take]

theorem lockedSkipFromBuffer_eq_move {st : RingBuffer α} {count : Nat} :
    lockedSkipFromBuffer st count
      = ((lockedMoveFromBuffer st count).2.1,
         (lockedMoveFromBuffer st count).2.2) := by
  simp only [lockedSkipFromBuffer, lockedMoveFromBuffer]
  split_ifs <;> rfl

/-- The loop of `readFull(d_first, count)` under sequential semantics:
wait until `canRead_() || closed_` (with no concurrent writer a false
predicate never becomes true, hence `none`), break if closed and empty,
otherwise move out what is available and loop on the remaining count.
`fuel` bounds the iterations; each progressing iteration reads at least
one element.  The source's return value `originalCount - count` is the
length of the returned list. -/
def readFullGo (fuel : Nat) (st : RingBuffer α) (count : Nat) :
    Option (List α × RingBuffer α) :=
  if count = 0 then some ([], st)
  else match fuel with
  | 0 => none
  | fuel + 1 =>
    if ¬ canRead st ∧ st.closed = false then none
    else if st.closed = true ∧ ¬ canRead st then some ([], st)
    else
      let r := lockedMoveFromBuffer st count
      if r.2.1 = 0 then none
      else match readFullGo fuel r.2.2 (count - r.2.1) with
        | none => none
        | some (out, st') => some (r.1 ++ out, st')

/-- `readFull`: `count + 1` iterations always suffice for a terminating
execution, since a progressing iteration reads at least one element. -/
def readFull (st : RingBuffer α) (count : Nat) :
    Option (List α × RingBuffer α) :=
  readFullGo (count + 1) st count

/-- The loop of `skipFull(count)`, sequential semantics as for
`readFullGo`.  Returns the number skipped (`originalCount - count`). -/
def skipFullGo (fuel : Nat) (st : RingBuffer α) (count : Nat) :
    Option (Nat × RingBuffer α) :=
  if count = 0 then some (0, st)
  else match fuel with
  | 0 => none
  | fuel + 1 =>
    if ¬ canRead st ∧ st.closed = false then none
    else if st.closed = true ∧ ¬ canRead st then some (0, st)
    else
      let r := lockedSkipFromBuffer st count
      if r.1 = 0 then none
      else match skipFullGo fuel r.2 (count - r.1) with
        | none => none
        | some (k, st') => some (r.1 + k, st')

/-- `skipFull` with sufficient fuel. -/
def skipFull (st : RingBuffer α) (count : Nat) :
    Option (Nat × RingBuffer α) :=
  skipFullGo (count + 1) st count

/-- The loop of `writeFull(first, count)` under sequential semantics:
wait until `canWrite_() || closed_` (`none` when the wait can never
end), return if closed, otherwise copy what fits and loop.  The source
returns void. -/
def writeFullGo (fuel : Nat) (st : RingBuffer α) (src : List α)
    (count : Nat) : Option (RingBuffer α) :=
  if count = 0 then some st
  else match fuel with
  | 0 => none
  | fuel + 1 =>
    if ¬ canWrite st ∧ st.closed = false then none
    else if st.closed = true then some st
    else
      let r := lockedXferToBuffer st src count
      if r.1 = 0 then none
      else writeFullGo fuel r.2 (src.drop r.1) (count - r.1)

/-- `writeFull` with sufficient fuel. -/
def writeFull (st : RingBuffer α) (src : List α) (count : Nat) :
    Option (RingBuffer α) :=
  writeFullGo (count + 1) st src count

/-- The loop of `writeTimed(first, count, until)` for a deadline that
has already passed at the time of the call: `try_lock_until` on the
uncontended mutex succeeds, and `wait_until` with an elapsed deadline
returns the current value of `canWrite_() || closed_` without blocking,
so a false predicate breaks the loop rather than waiting.  Returns
`originalCount - count`, accumulated in `acc`.  `none` marks the
impossible no-progress spin (it needs a malformed state). -/
def writeTimedPastGo (fuel : Nat) (st : RingBuffer α) (src : List α)
    (count acc : Nat) : Option (Nat × RingBuffer α) :=
  if count = 0 then some (acc, st)
  else match fuel with
  | 0 => none
  | fuel + 1 =>
    if ¬ canWrite st ∧ st.closed = false then some (acc, st)
    else if st.closed = true then some (acc, st)
    else
      let r := lockedXferToBuffer st src count
      if r.1 = 0 then none
      else writeTimedPastGo fuel r.2 (src.drop r.1) (count - r.1) (acc + r.1)

/-- `writeTimed` called with a deadline in the past. -/
def writeTimedPast (st : RingBuffer α) (src : List α) (count : Nat) :
    Option (Nat × RingBuffer α) :=
  writeTimedPastGo (count + 1) st src count 0

/-- `writePartial(first, count)` (and `writeMovePartial`): a single
non-blocking `lockedCopyToBuffer_`.  The source declares the return
type `std::size_t` but returns the expression `n > 0`, so the caller
receives 1 or 0, not the transferred count `n`. -/
def writePartial (st : RingBuffer α) (src : List α) (count : Nat) :
    Nat × RingBuffer α :=
  let r := lockedXferToBuffer st src count
  (if 0 < r.1 then 1 else 0, r.2)

/-- `readPartial(d_first, count)`: a single non-blocking
`lockedMoveFromBuffer_`; the source returns the transferred count
(the first component of the inner pair). -/
def readPartial (st : RingBuffer α) (count : Nat) :
    List α × Nat × RingBuffer α :=
  lockedMoveFromBuffer st count

theorem readFull_enough {st : RingBuffer α} (count : Nat) (hwf : st.WF)
    (hcount : count ≤ lockedToRead st) :
    ∃ st', readFull st count = some ((contents st).take count, st') ∧
      st'.WF ∧ st'.buffer = st.buffer ∧ st'.size = st.size ∧
      st'.head = st.head ∧ st'.closed = st.closed ∧
      lockedToRead st' = lockedToRead st - count ∧
      contents st' = (contents st).drop count := by
  obtain ⟨hn, hout, hwf', hbuf, hsz, hhd, hcl, hocc, hcont⟩ :=
    lockedMoveFromBuffer_spec count hwf
  by_cases h0 : count = 0
  · refine ⟨st, ?_, hwf, rfl, rfl, rfl, rfl, by omega, by simp [h0]⟩
    simp [readFull, readFullGo, h0]
  · have hmin : min count (lockedToRead st) = count := Nat.min_eq_left hcount
    rw [hmin] at hn hout hocc hcont
    have hcr : canRead st := (canRead_iff hwf).mpr (by omega)
    refine ⟨(lockedMoveFromBuffer st count).2.2, ?_, hwf', hbuf, hsz, hhd,
      hcl, hocc, hcont⟩
    rw [readFull]
    rw [readFullGo.eq_def]
    rw [if_neg h0]
    simp only []
    rw [if_neg (by simp [hcr]), if_neg (by simp [hcr])]
    simp only [hn, if_neg h0]
    rw [show count - count = 0 from by omega, readFullGo.eq_def]
    simp [hout]

theorem skipFull_enough {st : RingBuffer α} (count : Nat) (hwf : st.WF)
    (hcount : count ≤ lockedToRead st) :
    ∃ st', skipFull st count = some (count, st') ∧
      st'.WF ∧ st'.buffer = st.buffer ∧ st'.size = st.size ∧
      st'.head = st.head ∧ st'.closed = st.closed ∧
      lockedToRead st' = lockedToRead st - count ∧
      contents st' = (contents st).drop count := by
  obtain ⟨hn, hout, hwf', hbuf, hsz, hhd, hcl, hocc, hcont⟩ :=
    lockedMoveFromBuffer_spec count hwf
  by_cases h0 : count = 0
  · refine ⟨st, ?_, hwf, rfl, rfl, rfl, rfl, by omega, by simp [h0]⟩
    simp [skipFull, skipFullGo, h0]
  · have hmin : min count (lockedToRead st) = count := Nat.min_eq_left hcount
    rw [hmin] at hn hout hocc hcont
    have hcr : canRead st := (canRead_iff hwf).mpr (by omega)
    refine ⟨(lockedMoveFromBuffer st count).2.2, ?_, hwf', hbuf, hsz, hhd,
      hcl, hocc, hcont⟩
    rw [skipFull, skipFullGo.eq_def]
    rw [if_neg h0]
    simp only []
    rw [if_neg (by simp [hcr]), if_neg (by simp [hcr])]
    simp only [lockedSkipFromBuffer_eq_move, hn, if_neg h0]
    rw [show count - count = 0 from by omega, skipFullGo.eq_def]
    simp

theorem writeFull_enough {st : RingBuffer α} (src : List α) (count : Nat)
    (hwf : st.WF) (hopen : st.closed = false)
    (hcount : count ≤ lockedToWrite st) (hsrc : count ≤ src.length) :
    ∃ st', writeFull st src count = some st' ∧
      st'.WF ∧ st'.size = st.size ∧ st'.tail = st.tail ∧
      st'.closed = st.closed ∧
      lockedToRead st' = lockedToRead st + count ∧
      contents st' = contents st ++ src.take count := by
  obtain ⟨hn, hwf', hsz, htl, hcl, hocc, hcont⟩ :=
    lockedXferToBuffer_spec src count hwf hsrc
  by_cases h0 : count = 0
  · refine ⟨st, ?_, hwf, rfl, rfl, rfl, by omega, by simp [h0]⟩
    simp [writeFull, writeFullGo, h0]
  · have hmin : min count (lockedToWrite st) = count := Nat.min_eq_left hcount
    rw [hmin] at hn hocc hcont
    have hcw : canWrite st := by
      rw [canWrite_iff hwf]
      have := lockedToRead_le_size hwf
      unfold lockedToWrite at hcount
      omega
    refine ⟨(lockedXferToBuffer st src count).2, ?_, hwf', hsz, htl,
      hcl, hocc, hcont⟩
    rw [writeFull, writeFullGo.eq_def]
    rw [if_neg h0]
    simp only []
    rw [if_neg (by simp [hcw]), if_neg (by simp [hopen])]
    simp only [hn, if_neg h0]
    rw [show count - count = 0 from by omega, writeFullGo.eq_def]
    simp

theorem writeTimedPast_spec {st : RingBuffer α} {src : List α} {count : Nat}
    (hwf : st.WF) (hopen : st.closed = false) (hsrc : count ≤ src.length) :
    ∃ st', writeTimedPast st src count
        = some (min count (lockedToWrite st), st') ∧
      st'.WF ∧ st'.size = st.size ∧ st'.tail = st.tail ∧
      st'.closed = st.closed ∧
      lockedToRead st' = lockedToRead st + min count (lockedToWrite st) ∧
      contents st' = contents st ++ src.take (min count (lockedToWrite st)) := by
  obtain ⟨hn, hwf', hsz, htl, hcl, hocc, hcont⟩ :=
    lockedXferToBuffer_spec src count hwf hsrc
  have hoccle := lockedToRead_le_size hwf
  have hwrw : lockedToWrite st = st.size - lockedToRead st := rfl
  by_cases h0 : count = 0
  · refine ⟨st, ?_, hwf, rfl, rfl, rfl, by omega, by simp [h0]⟩
    simp [writeTimedPast, writeTimedPastGo, h0]
  · by_cases hful : lockedToWrite st = 0
    · -- the buffer is already full: the elapsed-deadline wait returns
      -- false at once and the call writes nothing
      have hncw : ¬ canWrite st := by
        rw [canWrite_iff hwf]
        omega
      refine ⟨st, ?_, hwf, rfl, rfl, rfl, by omega, ?_⟩
      · rw [writeTimedPast, writeTimedPastGo.eq_def]
        rw [if_neg h0]
        simp only []
        rw [if_pos (by simp [hncw, hopen]), hful]
        simp
      · rw [hful]
        simp
    · have hcw : canWrite st := by
        rw [canWrite_iff hwf]
        omega
      obtain ⟨k, rfl⟩ : ∃ k, count = k + 1 := ⟨count - 1, by omega⟩
      refine ⟨(lockedXferToBuffer st src (k + 1)).2, ?_, hwf', hsz, htl,
        hcl, hocc, hcont⟩
      rw [writeTimedPast, writeTimedPastGo.eq_def]
      rw [if_neg h0]
      simp only []
      rw [if_neg (by simp [hcw]), if_neg (by simp [hopen])]
      simp only [hn, if_neg (show ¬ min (k + 1) (lockedToWrite st) = 0 from by
        omega)]
      by_cases hrem : k + 1 - min (k + 1) (lockedToWrite st) = 0
      · rw [writeTimedPastGo.eq_def, if_pos hrem]
        simp
      · -- the first transfer filled the buffer; the next elapsed-deadline
        -- wait sees a full, open buffer and breaks
        have hfull2 : ¬ canWrite (lockedXferToBuffer st src (k + 1)).2 := by
          rw [canWrite_iff hwf']
          omega
        rw [writeTimedPastGo.eq_def, if_neg hrem]
        simp only []
        rw [if_pos (by simp [hfull2, hcl, hopen])]
        simp

/-- C3: the claim says `write_partial(v, n)` (and the move variant)
returns the number of elements actually written, `min n (free space)`.
The source declares the return type `std::size_t` but its return
expression is `n > 0` (`buffer.hh` line 304, and line 368 for the move
variant), so with 3 elements written into an empty 4-capacity buffer the
caller receives 1, although all 3 elements were admitted (occupancy 3,
contents `[10, 20, 30]`) and `read_partial` symmetrically reports 3.
This contradicts the function's own doc comment ("Returns the number of
elements actually written"), so the code, not the claim, is wrong. -/
theorem C3_writePartial_return_collapses :
    (writePartial (mkRingBuffer 4 (0 : Nat)) [10, 20, 30] 3).1 = 1 ∧
    min 3 (lockedToWrite (mkRingBuffer 4 (0 : Nat))) = 3 ∧
    lockedToRead (writePartial (mkRingBuffer 4 (0 : Nat)) [10, 20, 30] 3).2
      = 3 ∧
    contents (writePartial (mkRingBuffer 4 (0 : Nat)) [10, 20, 30] 3).2
      = [10, 20, 30] ∧
    (readPartial (writePartial (mkRingBuffer 4 (0 : Nat)) [10, 20, 30] 3).2
      3).2.1 = 3 := by
  decide

/-- C5 counterexample: the claim says a `write_timed` whose deadline has
already passed writes nothing and returns 0.  On an empty 4-capacity
buffer, writing 2 elements with an elapsed deadline admits both elements
and returns 2: `wait_until` with an elapsed deadline still reports a
true predicate, so the copy happens. -/
theorem C5_writeTimed_past_counterexample :
    (writeTimedPast (mkRingBuffer 4 (0 : Nat)) [5, 6] 2).map
        (fun r => (r.1, lockedToRead r.2, contents r.2))
      = some (2, 2, [5, 6]) ∧
    (writeTimedPast (mkRingBuffer 4 (0 : Nat)) [5, 6] 2).map Prod.fst
      ≠ some 0 := by
  decide

/-- C5 amended: `write_timed` with an elapsed deadline writes
`min n (free space)` elements without blocking beyond the mutex and
returns that count; in particular it returns 0 exactly when the buffer
is full (or n = 0). -/
theorem C5_writeTimed_past_amended {α : Type} (st : RingBuffer α)
    (src : List α) (count : Nat) (hwf : st.WF) (hopen : st.closed = false)
    (hsrc : count ≤ src.length) :
    ∃ st', writeTimedPast st src count
        = some (min count (lockedToWrite st), st') ∧
      contents st' = contents st ++ src.take (min count (lockedToWrite st)) ∧
      lockedToRead st' = lockedToRead st + min count (lockedToWrite st) := by
  obtain ⟨st', heq, _, _, _, _, hocc, hcont⟩ :=
    writeTimedPast_spec hwf hopen hsrc
  exact ⟨st', heq, hcont, hocc⟩

/-- C5 witness: the amended statement at a concrete input (capacity 4,
buffer empty, writing 3 of 3 elements). -/
theorem C5_writeTimed_past_amended_witness :
    ∃ st', writeTimedPast (mkRingBuffer 4 (0 : Nat)) [7, 8, 9] 3
        = some (min 3 (lockedToWrite (mkRingBuffer 4 (0 : Nat))), st') ∧
      contents st' = contents (mkRingBuffer 4 (0 : Nat))
        ++ [7, 8, 9].take (min 3 (lockedToWrite (mkRingBuffer 4 (0 : Nat)))) ∧
      lockedToRead st' = lockedToRead (mkRingBuffer 4 (0 : Nat))
        + min 3 (lockedToWrite (mkRingBuffer 4 (0 : Nat))) :=
  C5_writeTimed_past_amended (mkRingBuffer 4 (0 : Nat)) [7, 8, 9] 3
    (by decide) (by decide) (by decide)

/-- C7: on any well-formed open ring buffer of capacity N with
occupancy 0 (any head/tail position), writing a sequence `d` of length
`n ≤ N` with `write_full` and then reading `n` with `read_full` returns
exactly `d` (so the returned count is `n`) and leaves occupancy 0. -/
theorem C7_write_then_read_roundtrip {α : Type} (st : RingBuffer α)
    (d : List α) (n : Nat) (hwf : st.WF) (hopen : st.closed = false)
    (hempty : lockedToRead st = 0) (hn : n ≤ st.size) (hd : d.length = n) :
    ∃ st' st'', writeFull st d n = some st' ∧
      readFull st' n = some (d, st'') ∧ lockedToRead st'' = 0 := by
  have hcw : n ≤ lockedToWrite st := by
    unfold lockedToWrite
    omega
  obtain ⟨st', hw, hwf', hsz, htl, hcl, hocc, hcont⟩ :=
    writeFull_enough d n hwf hopen hcw (by omega)
  have hcont' : contents st' = d := by
    rw [hcont, contents_eq_nil hwf hempty, List.nil_append, ← hd,
      List.take_length]
  obtain ⟨st'', hr, _, _, _, _, _, hocc'', _⟩ :=
    readFull_enough n hwf' (by rw [hocc]; omega)
  refine ⟨st', st'', hw, ?_, by rw [hocc'']; omega⟩
  rw [hr, hcont', ← hd, List.take_length]

/-- C7 witness: capacity 4, head = tail = 2, writing and reading back
three elements. -/
theorem C7_write_then_read_roundtrip_witness :
    ∃ st' st'',
      writeFull (⟨List.replicate 5 0, 4, 2, 2, false⟩ : RingBuffer Nat)
        [7, 8, 9] 3 = some st' ∧
      readFull st' 3 = some ([7, 8, 9], st'') ∧ lockedToRead st'' = 0 :=
  C7_write_then_read_roundtrip ⟨List.replicate 5 0, 4, 2, 2, false⟩
    [7, 8, 9] 3 (by decide) (by decide) (by decide) (by decide) (by decide)

/-- `exo::PacketHeader`: `{ dataSize, frameCount, flags }`. -/
structure PacketHeader where
  dataSize : Nat
  frameCount : Nat
  flags : Nat
  deriving Repr, DecidableEq

namespace PacketFlags

/-- `PacketFlags::StartOfTrack`. -/
def StartOfTrack : Nat := 1

/-- `PacketFlags::OutOfBandMetadata`. -/
def OutOfBandMetadata : Nat := 2

end PacketFlags

/-- Number of ring elements occupied by a header image
(`sizeof(PacketHeader)` in the source; the concrete value is an
internal ABI, spec section 6 — only its fixed size and the round trip
below matter). -/
def HSIZE : Nat := 3

/-- The in-ring image of a header, modelling the source's `memcpy` of
the trivially copyable struct into `sizeof(header)` bytes. -/
def encodeHeader (h : PacketHeader) : List Nat :=
  [h.dataSize, h.frameCount, h.flags]

/-- The inverse `memcpy` performed by `readHeader`. -/
def decodeHeader (l : List Nat) : PacketHeader :=
  ⟨l.getD 0 0, l.getD 1 0, l.getD 2 0⟩

theorem decodeHeader_encodeHeader (h : PacketHeader) :
    decodeHeader (encodeHeader h) = h := rfl

theorem encodeHeader_length (h : PacketHeader) :
    (encodeHeader h).length = HSIZE := rfl

/-- `RingBufferWithHeader<T>::readHeader()`: a blocking `readFull` of
`sizeof(T)` elements; a short read (only possible when closed) yields
an empty optional.  The outer `none` is the sequential-divergence
marker inherited from `readFull`. -/
def readHeader (st : RingBuffer Nat) :
    Option (Option PacketHeader × RingBuffer Nat) :=
  match readFull st HSIZE with
  | none => none
  | some (out, st') =>
    if out.length < HSIZE then some (none, st')
    else some (some (decodeHeader out), st')

/-- `RingBufferWithHeader<T>::writeHeader(header)`. -/
def writeHeader (st : RingBuffer Nat) (h : PacketHeader) :
    Option (RingBuffer Nat) :=
  writeFull st (encodeHeader h) HSIZE

/-- `PacketRingBuffer::writePacket(flags, frameCount, data)`: the
header, then the payload. -/
def writePacket (st : RingBuffer Nat) (flags frameCount : Nat)
    (data : List Nat) : Option (RingBuffer Nat) :=
  match writeHeader st ⟨data.length, frameCount, flags⟩ with
  | none => none
  | some st1 => writeFull st1 data data.length

/-- `PacketRingBuffer::PacketRead`: the remaining byte count `left_`
and the packet header.  The source also stores a pointer to the owning
buffer; the model passes the buffer state explicitly instead. -/
structure PacketRead where
  left : Nat
  header : PacketHeader
  deriving Repr, DecidableEq

/-- The default-constructed cursor `PacketRead()`: `left_ = 0` and a
value-initialized header. -/
def freshPacketRead : PacketRead := ⟨0, ⟨0, 0, 0⟩⟩

/-- `PacketRead::readFull(d_first, count)`: clamp to `left_`
(`wantsToRead_`), return at once when zero, otherwise a blocking
`readFull` on the buffer followed by `didRead_`. -/
def cacheReadFull (c : PacketRead) (st : RingBuffer Nat) (count : Nat) :
    Option (List Nat × PacketRead × RingBuffer Nat) :=
  let count' := min count c.left
  if count' = 0 then some ([], c, st)
  else match readFull st count' with
    | none => none
    | some (out, st') =>
      some (out, { c with left := c.left - out.length }, st')

/-- `PacketRead::skipFull()`: a blocking skip of the remaining bytes of
the current packet, followed by `didRead_`. -/
def cacheSkipFull (c : PacketRead) (st : RingBuffer Nat) :
    Option (PacketRead × RingBuffer Nat) :=
  match skipFull st c.left with
  | none => none
  | some (n, st') => some ({ c with left := c.left - n }, st')

/-- `PacketRingBuffer::readPacket()`: read a header, build a cursor
whose `left_` is the header's `dataSize`. -/
def readPacket (st : RingBuffer Nat) :
    Option (Option PacketRead × RingBuffer Nat) :=
  match readHeader st with
  | none => none
  | some (none, st') => some (none, st')
  | some (some h, st') => some (some ⟨h.dataSize, h⟩, st')

/-- The loop of `PacketRingBuffer::readDirectFull(cache, d_first,
count)`: skip the current packet when its flags contain
`OutOfBandMetadata`, otherwise read from it and stop once `count` is
satisfied; at the end of a packet move to the next header, stopping
when no further packet can be read.  `fuel` bounds iterations (each
continuing iteration consumes a header from the ring). -/
def readDirectFullGo (fuel : Nat) (st : RingBuffer Nat) (c : PacketRead)
    (acc : List Nat) (count : Nat) :
    Option (List Nat × PacketRead × RingBuffer Nat) :=
  match fuel with
  | 0 => none
  | fuel + 1 =>
    if c.header.flags &&& PacketFlags.OutOfBandMetadata ≠ 0 then
      match cacheSkipFull c st with
      | none => none
      | some (c1, st1) =>
        match readPacket st1 with
        | none => none
        | some (none, st2) => some (acc, c1, st2)
        | some (some c2, st2) => readDirectFullGo fuel st2 c2 acc count
    else
      match cacheReadFull c st count with
      | none => none
      | some (out, c1, st1) =>
        if count - out.length = 0 then some (acc ++ out, c1, st1)
        else
          match readPacket st1 with
          | none => none
          | some (none, st2) => some (acc ++ out, c1, st2)
          | some (some c2, st2) =>
            readDirectFullGo fuel st2 c2 (acc ++ out) (count - out.length)

/-- `readDirectFull` with sufficient fuel: every continuing iteration
consumes a header (`HSIZE` elements) from the ring. -/
def readDirectFull (st : RingBuffer Nat) (c : PacketRead) (count : Nat) :
    Option (List Nat × PacketRead × RingBuffer Nat) :=
  readDirectFullGo (lockedToRead st + 2) st c [] count

theorem writePacket_enough {st : RingBuffer Nat} (flags frameCount : Nat)
    (data : List Nat) (hwf : st.WF) (hopen : st.closed = false)
    (hfit : HSIZE + data.length ≤ lockedToWrite st) :
    ∃ st', writePacket st flags frameCount data = some st' ∧
      st'.WF ∧ st'.size = st.size ∧ st'.closed = false ∧
      lockedToRead st' = lockedToRead st + HSIZE + data.length ∧
      contents st' = contents st
        ++ encodeHeader ⟨data.length, frameCount, flags⟩ ++ data := by
  have hhs : HSIZE = 3 := rfl
  have hwrw : lockedToWrite st = st.size - lockedToRead st := rfl
  obtain ⟨st1, hw1, hwf1, hsz1, _, hcl1, hocc1, hcont1⟩ :=
    writeFull_enough (encodeHeader ⟨data.length, frameCount, flags⟩)
      HSIZE hwf hopen (by omega)
      (by rw [encodeHeader_length])
  have hwrw1 : lockedToWrite st1 = st1.size - lockedToRead st1 := rfl
  obtain ⟨st2, hw2, hwf2, hsz2, _, hcl2, hocc2, hcont2⟩ :=
    writeFull_enough data data.length hwf1
      (by rw [hcl1, hopen]) (by rw [hwrw1, hocc1, hsz1]; omega) (le_refl _)
  refine ⟨st2, ?_, hwf2, hsz2.trans hsz1, hcl2.trans (hcl1.trans hopen),
    by rw [hocc2, hocc1], ?_⟩
  · simp only [writePacket, writeHeader, hw1, hw2]
  · rw [hcont2, hcont1, List.take_length,
      List.take_of_length_le (le_of_eq (encodeHeader_length _))]

theorem readPacket_enough {st : RingBuffer Nat} {h : PacketHeader}
    {rest : List Nat} (hwf : st.WF)
    (hcont : contents st = encodeHeader h ++ rest)
    (hocc : HSIZE ≤ lockedToRead st) :
    ∃ st', readPacket st = some (some ⟨h.dataSize, h⟩, st') ∧
      st'.WF ∧ st'.size = st.size ∧ st'.closed = st.closed ∧
      lockedToRead st' = lockedToRead st - HSIZE ∧
      contents st' = rest := by
  obtain ⟨st', hr, hwf', _, hsz', _, hcl', hocc', hcont'⟩ :=
    readFull_enough HSIZE hwf hocc
  have hout : (contents st).take HSIZE = encodeHeader h := by
    rw [hcont, List.take_left' (encodeHeader_length h)]
  refine ⟨st', ?_, hwf', hsz', hcl', hocc', ?_⟩
  · simp only [readPacket, readHeader, hr, hout]
    rw [if_neg (by rw [encodeHeader_length]; omega)]
    simp only [decodeHeader_encodeHeader]
  · rw [hcont', hcont, List.drop_left' (encodeHeader_length h)]

theorem cacheReadFull_exact {st : RingBuffer Nat} (c : PacketRead)
    (pay rest : List Nat) (count : Nat) (hwf : st.WF)
    (hcont : contents st = pay ++ rest) (hleft : c.left = pay.length)
    (hpos : c.left ≠ 0) (hc : c.left ≤ count)
    (hocc : pay.length ≤ lockedToRead st) :
    ∃ c' st', cacheReadFull c st count = some (pay, c', st') ∧
      st'.WF ∧ st'.size = st.size ∧ st'.closed = st.closed ∧
      lockedToRead st' = lockedToRead st - pay.length ∧
      contents st' = rest := by
  obtain ⟨st', hr, hwf', _, hsz', _, hcl', hocc', hcont'⟩ :=
    readFull_enough c.left hwf (by omega)
  have hout : (contents st).take c.left = pay := by
    rw [hcont, hleft, List.take_left' rfl]
  refine ⟨{ c with left := c.left - pay.length },
    st', ?_, hwf', hsz', hcl', by rw [hocc']; omega, ?_⟩
  · rw [cacheReadFull]
    simp only [Nat.min_eq_right hc, if_neg hpos, hr]
    rw [hout]
  · rw [hcont', hcont, hleft, List.drop_left' rfl]

theorem cacheSkipFull_exact {st : RingBuffer Nat} (c : PacketRead)
    (pay rest : List Nat) (hwf : st.WF)
    (hcont : contents st = pay ++ rest) (hleft : c.left = pay.length)
    (hocc : pay.length ≤ lockedToRead st) :
    ∃ c' st', cacheSkipFull c st = some (c', st') ∧
      st'.WF ∧ st'.size = st.size ∧ st'.closed = st.closed ∧
      lockedToRead st' = lockedToRead st - pay.length ∧
      contents st' = rest := by
  obtain ⟨st', hr, hwf', _, hsz', _, hcl', hocc', hcont'⟩ :=
    skipFull_enough c.left hwf (by omega)
  refine ⟨{ c with left := c.left - c.left }, st', ?_, hwf', hsz', hcl',
    by rw [hocc', hleft], ?_⟩
  · simp only [cacheSkipFull, hr]
  · rw [hcont', hcont, hleft, List.drop_left' rfl]

theorem readDirect_trace (f : Nat) {st3 : RingBuffer Nat}
    (p1 m p2 : List Nat) (fc1 fc2 fc3 : Nat)
    (hwf3 : st3.WF)
    (h1 : p1.length = 32) (h2 : m.length = 16) (h3 : p2.length = 16)
    (hcont3 : contents st3
      = encodeHeader ⟨32, fc1, 0⟩ ++ (p1
        ++ (encodeHeader ⟨16, fc2, PacketFlags.OutOfBandMetadata⟩
          ++ (m ++ (encodeHeader ⟨16, fc3, 0⟩ ++ p2)))))
    (hocc3 : lockedToRead st3 = 73) :
    ∃ c' st4, readDirectFullGo (f + 4) st3 freshPacketRead [] 48
        = some (p1 ++ p2, c', st4) ∧ lockedToRead st4 = 0 := by
  have hhs : HSIZE = 3 := rfl
  -- iteration 1: the fresh cursor is empty; read 0 bytes, fetch P1's header
  obtain ⟨st4, hp1, hwf4, hsz4, hcl4, hocc4, hcont4⟩ :=
    readPacket_enough hwf3 hcont3 (by omega)
  rw [readDirectFullGo.eq_def]
  simp only []
  rw [if_neg (by decide),
    show cacheReadFull freshPacketRead st3 48
      = some ([], freshPacketRead, st3) from rfl]
  simp only [List.length_nil, Nat.sub_zero, List.nil_append]
  rw [if_neg (by decide), hp1]
  simp only []
  -- iteration 2: read all 32 bytes of P1, fetch M's header
  obtain ⟨c2, st5, hq2, hwf5, hsz5, hcl5, hocc5, hcont5⟩ :=
    cacheReadFull_exact ⟨32, ⟨32, fc1, 0⟩⟩ p1
      (encodeHeader ⟨16, fc2, PacketFlags.OutOfBandMetadata⟩
        ++ (m ++ (encodeHeader ⟨16, fc3, 0⟩ ++ p2))) 48
      hwf4 hcont4 h1.symm (by show (32 : Nat) ≠ 0; decide)
      (by show (32 : Nat) ≤ 48; decide) (by omega)
  obtain ⟨st6, hp2, hwf6, hsz6, hcl6, hocc6, hcont6⟩ :=
    readPacket_enough hwf5 hcont5 (by omega)
  rw [readDirectFullGo.eq_def]
  simp only []
  rw [if_neg (by decide), hq2]
  simp only [h1, List.nil_append]
  rw [if_neg (by decide)]
  rw [hp2]
  simp only []
  -- iteration 3: skip the out-of-band packet M, fetch P2's header
  obtain ⟨c3, st7, hq3, hwf7, hsz7, hcl7, hocc7, hcont7⟩ :=
    cacheSkipFull_exact ⟨16, ⟨16, fc2, PacketFlags.OutOfBandMetadata⟩⟩
      m (encodeHeader ⟨16, fc3, 0⟩ ++ p2)
      hwf6 hcont6 h2.symm (by omega)
  obtain ⟨st8, hp3, hwf8, hsz8, hcl8, hocc8, hcont8⟩ :=
    readPacket_enough hwf7 hcont7 (by omega)
  rw [readDirectFullGo.eq_def]
  simp only []
  rw [if_pos (by decide), hq3]
  simp only []
  rw [hp3]
  simp only []
  -- iteration 4: read all 16 bytes of P2; the requested 48 are complete
  obtain ⟨c4, st9, hq4, hwf9, hsz9, hcl9, hocc9, hcont9⟩ :=
    cacheReadFull_exact ⟨16, ⟨16, fc3, 0⟩⟩ p2 [] 16
      hwf8 (by rw [hcont8, List.append_nil]) h3.symm
      (by show (16 : Nat) ≠ 0; decide) (by show (16 : Nat) ≤ 16; decide)
      (by omega)
  rw [readDirectFullGo.eq_def]
  simp only []
  rw [if_neg (by decide), hq4]
  simp only [h3]
  rw [if_pos (by decide)]
  exact ⟨c4, st9, rfl, by omega⟩

/-- C8: on an empty, open packet ring buffer with room for all three
packets, writing P1 (32 bytes, flags 0), M (16 bytes, flags
`OutOfBandMetadata`) and P2 (16 bytes, flags 0) and then performing a
`read_direct_full` with a fresh cursor and count 48 yields exactly
`P1 ++ P2` (48 bytes) and leaves the buffer empty: the direct read
crosses the packet boundaries and skips the out-of-band packet. -/
theorem C8_direct_read_across_oob (st : RingBuffer Nat) (p1 m p2 : List Nat)
    (fc1 fc2 fc3 : Nat) (hwf : st.WF) (hopen : st.closed = false)
    (hempty : lockedToRead st = 0) (hcap : 73 ≤ st.size)
    (h1 : p1.length = 32) (h2 : m.length = 16) (h3 : p2.length = 16) :
    ∃ st3 c' st4,
      ((writePacket st 0 fc1 p1).bind fun s1 =>
        (writePacket s1 PacketFlags.OutOfBandMetadata fc2 m).bind fun s2 =>
          writePacket s2 0 fc3 p2) = some st3 ∧
      readDirectFull st3 freshPacketRead 48 = some (p1 ++ p2, c', st4) ∧
      lockedToRead st4 = 0 := by
  have hhs : HSIZE = 3 := rfl
  have hw0 : lockedToWrite st = st.size - lockedToRead st := rfl
  obtain ⟨s1, hwp1, hwf1, hsz1, hcl1, hocc1, hcont1⟩ :=
    writePacket_enough 0 fc1 p1 hwf hopen (by omega)
  have hw1 : lockedToWrite s1 = s1.size - lockedToRead s1 := rfl
  obtain ⟨s2, hwp2, hwf2, hsz2, hcl2, hocc2, hcont2⟩ :=
    writePacket_enough PacketFlags.OutOfBandMetadata fc2 m hwf1 hcl1
      (by rw [hw1]; omega)
  have hw2 : lockedToWrite s2 = s2.size - lockedToRead s2 := rfl
  obtain ⟨s3, hwp3, hwf3, hsz3, hcl3, hocc3, hcont3⟩ :=
    writePacket_enough 0 fc3 p2 hwf2 hcl2 (by rw [hw2]; omega)
  have hocc3' : lockedToRead s3 = 73 := by omega
  have hcont3' : contents s3
      = encodeHeader ⟨32, fc1, 0⟩ ++ (p1
        ++ (encodeHeader ⟨16, fc2, PacketFlags.OutOfBandMetadata⟩
          ++ (m ++ (encodeHeader ⟨16, fc3, 0⟩ ++ p2)))) := by
    rw [hcont3, hcont2, hcont1, contents_eq_nil hwf hempty, h1, h2, h3]
    simp only [List.nil_append, List.append_assoc]
  obtain ⟨c', st4, htr, hocc4⟩ :=
    readDirect_trace 71 p1 m p2 fc1 fc2 fc3 hwf3 h1 h2 h3 hcont3' hocc3'
  refine ⟨s3, c', st4, ?_, ?_, hocc4⟩
  · rw [hwp1, Option.some_bind, hwp2, Option.some_bind, hwp3]
  · rw [readDirectFull, hocc3']
    exact htr

/-- C8 witness: capacity 80, payloads of 1s, 2s and 3s. -/
theorem C8_direct_read_across_oob_witness :
    ∃ st3 c' st4,
      ((writePacket (mkRingBuffer 80 0) 0 0 (List.replicate 32 1)).bind
        fun s1 =>
          (writePacket s1 PacketFlags.OutOfBandMetadata 0
            (List.replicate 16 2)).bind fun s2 =>
              writePacket s2 0 0 (List.replicate 16 3)) = some st3 ∧
      readDirectFull st3 freshPacketRead 48
        = some (List.replicate 32 1 ++ List.replicate 16 3, c', st4) ∧
      lockedToRead st4 = 0 :=
  C8_direct_read_across_oob (mkRingBuffer 80 0) (List.replicate 32 1)
    (List.replicate 16 2) (List.replicate 16 3) 0 0 0 (by decide) (by decide)
    (by decide) (by decide) (by decide) (by decide) (by decide)

/-- `CommandAcknowledgeEvent::NO_ENCODER`:
`static_cast<std::size_t>(-1)` for a 64-bit `size_t`. -/
def NO_ENCODER : Nat := 2 ^ 64 - 1

/-- `exo::CommandAcknowledgeEvent`: an encoder index (or `NO_ENCODER`)
plus a shared pointer to the original command object (`Option`: the
pointer may be null). -/
structure CommandAcknowledgeEvent (γ : Type) where
  encoderIndex : Nat
  command : Option γ
  deriving DecidableEq

/-- `exo::PublishedEvent`: a variant currently holding only
`CommandAcknowledgeEvent`. -/
inductive PublishedEvent (γ : Type) where
  | commandAcknowledge : CommandAcknowledgeEvent γ → PublishedEvent γ
  deriving DecidableEq

/-- The JSON object `convertEvent` serializes: `type`, `source`, the
optional `index`, and the echoed command object. -/
structure AckMessage (γ : Type) where
  type : String
  source : String
  index : Option Nat
  command : γ
  deriving DecidableEq

/-- `convertEvent(event, stream)` from `src/publisher.cc`: returns
false (here `none`) without touching the stream when the command
pointer is null; otherwise writes one JSON object whose `source` is
`"decoder"` when the index is the `NO_ENCODER` sentinel and
`"encoder"` (plus the index) otherwise. -/
def convertEvent : PublishedEvent γ → Option (AckMessage γ)
  | .commandAcknowledge e =>
    match e.command with
    | none => none
    | some c =>
      some { type := "acknowledge",
             source := if e.encoderIndex = NO_ENCODER then "decoder"
               else "encoder",
             index := if e.encoderIndex = NO_ENCODER then none
               else some e.encoderIndex,
             command := c }

/-- What `PublishQueue::run` appends to the underlying write queue per
event: the serialized message and the `writeLine` boundary. -/
inductive WireItem (γ : Type) where
  | message (msg : AckMessage γ)
  | lineBreak
  deriving DecidableEq

/-- One iteration of `PublishQueue::run` on a dequeued event: output
the serialized JSON plus a line boundary iff `convertEvent` succeeded,
otherwise leave the wire untouched. -/
def processEvent (wire : List (WireItem γ)) (ev : PublishedEvent γ) :
    List (WireItem γ) :=
  match convertEvent ev with
  | some msg => wire ++ [WireItem.message msg, WireItem.lineBreak]
  | none => wire

/-- C10: an acknowledgement event whose command pointer is null is
silently discarded: `convertEvent` reports failure before writing
anything to the stream, and `PublishQueue::run` therefore skips
`writeLine` as well, so the wire is unchanged — no message and no line
boundary. -/
theorem C10_null_command_ack_discarded {γ : Type} (i : Nat)
    (wire : List (WireItem γ)) :
    convertEvent (PublishedEvent.commandAcknowledge ⟨i, (none : Option γ)⟩)
      = none ∧
    processEvent wire (PublishedEvent.commandAcknowledge ⟨i, none⟩)
      = wire := ⟨rfl, rfl⟩

/-- `exo::PcmBufferRow`: `{ command, metadata, pcmBytes }`, the two
pointers nullable. -/
structure PcmBufferRow (γ μ : Type) where
  command : Option γ
  metadata : Option μ
  pcmBytes : Nat
  deriving DecidableEq

/-- `exo::PcmBuffer` state: the PCM byte ring, `pcmLeft_`, the circular
row queue `songChanges_` (an `std::array` of 8 in the source) with
`songHead_`/`songTail_`, `closed_`, `subindex_` and the `skip_`
configuration flag.  The frame-pacing clock, `firstPcm_`, format and
publisher pointer carry no byte accounting and are omitted; publisher
calls are returned as event values instead. -/
structure PcmBuffer (γ μ : Type) where
  pcm : RingBuffer Nat
  pcmLeft : Nat
  songChanges : List (PcmBufferRow γ μ)
  songHead : Nat
  songTail : Nat
  closed : Bool
  subindex : Nat
  skip : Bool
  deriving DecidableEq

/-- `PcmBuffer::readMetadata()`: empty when no row is queued or the
current track still has PCM left; otherwise dequeue one row, exchange
its `pcmBytes` into `pcmLeft_` and its metadata pointer out, and
acknowledge the row's command with this buffer's encoder index.
Returns (metadata, new state, published event). -/
def readMetadata (st : PcmBuffer γ μ) :
    Option μ × PcmBuffer γ μ × Option (CommandAcknowledgeEvent γ) :=
  if st.songHead = st.songTail ∨ st.pcmLeft ≠ 0 then (none, st, none)
  else
    let index := st.songTail
    let row := st.songChanges.getD index ⟨none, none, 0⟩
    (row.metadata,
     { st with
        songTail := (st.songTail + 1) % st.songChanges.length,
        pcmLeft := row.pcmBytes,
        songChanges := st.songChanges.set index
          ({ row with pcmBytes := 0, metadata := none }) },
     some ⟨st.subindex, row.command⟩)

/-- `PcmBuffer::writeMetadata(command, metadata)`: no-op when closed;
when the row queue is full, the source sleeps about a second, retries
once and bails out if still full — with no concurrent reader it is
still full, so the sequential model drops the row; otherwise enqueue a
row with `pcmBytes = 0`. -/
def writeMetadata (st : PcmBuffer γ μ) (command : Option γ)
    (metadata : Option μ) : PcmBuffer γ μ :=
  if st.closed then st
  else if (st.songHead + 1) % st.songChanges.length = st.songTail then st
  else
    let index := st.songHead
    { st with
       songChanges := st.songChanges.set index ⟨command, metadata, 0⟩,
       songHead := (st.songHead + 1) % st.songChanges.length }

/-- `PcmBuffer::writePcm(data)` for the `skip_ = false` configuration
(the `skip_ = true` path paces `writeTimed` against the wall clock and
is outside the sequential model, hence `none`).  After the blocking
`writeFull`, the source computes
`written = pcm_.closedToWrites() ? data.size() : 0` and credits
`written` bytes to the most recently queued row (index
`songHead_ == 0 ? size - 1 : songHead_ - 1`) or, with no queued row, to
`pcmLeft_`.  Frame-clock updates are omitted. -/
def writePcm (st : PcmBuffer γ μ) (data : List Nat) :
    Option (PcmBuffer γ μ) :=
  if st.closed then some st
  else if st.skip then none
  else
    match writeFull st.pcm data data.length with
    | none => none
    | some pcm' =>
      let written := if pcm'.closed then data.length else 0
      if written = 0 then some { st with pcm := pcm' }
      else if st.songHead ≠ st.songTail then
        let index := if st.songHead = 0 then st.songChanges.length - 1
          else st.songHead - 1
        let row := st.songChanges.getD index ⟨none, none, 0⟩
        some ({ st with
                pcm := pcm',
                songChanges := st.songChanges.set index
                  ({ row with pcmBytes := row.pcmBytes + written }) })
      else some { st with pcm := pcm', pcmLeft := st.pcmLeft + written }

/-- `PcmBuffer::readPcm(destination)` under sequential semantics: when
`pcmLeft_` is zero, the wait on `hasPcm_` ends only if a row is queued
or the buffer is closed (`none` otherwise); end-of-stream returns 0.
Otherwise read `min(pcmLeft, destination.size())` rounded down to whole
frames, decrement `pcmLeft_`, and drain that many bytes from the
ring. -/
def readPcm (st : PcmBuffer γ μ) (bytesPerFrame dstLen : Nat) :
    Option (Nat × List Nat × PcmBuffer γ μ) :=
  if st.pcmLeft = 0 ∧ st.songHead = st.songTail ∧ st.closed = false then
    none
  else if st.pcmLeft = 0 ∧ st.songHead = st.songTail ∧ st.closed = true then
    some (0, [], st)
  else
    let canRead0 := min st.pcmLeft dstLen
    let canRead := canRead0 - canRead0 % bytesPerFrame
    if canRead = 0 then some (0, [], st)
    else
      match readFull st.pcm canRead with
      | none => none
      | some (out, pcm') =>
        some (canRead, out,
          { st with pcmLeft := st.pcmLeft - canRead, pcm := pcm' })

/-- The rows currently queued, oldest first: from `songTail_` up to
(cyclically) `songHead_`. -/
def queuedRows (st : PcmBuffer γ μ) : List (PcmBufferRow γ μ) :=
  if st.songTail ≤ st.songHead then
    (st.songChanges.drop st.songTail).take (st.songHead - st.songTail)
  else st.songChanges.drop st.songTail ++ st.songChanges.take st.songHead

/-- The sum of `pcmBytes` over the queued rows. -/
def queuedPcmBytes (st : PcmBuffer γ μ) : Nat :=
  ((queuedRows st).map (fun r => r.pcmBytes)).sum

/-- The accounting invariant claimed by the spec: `pcm_left` plus the
queued rows' `pcm_bytes_associated` equals the occupancy of the PCM
byte ring. -/
def pcmAccountingInvariant (st : PcmBuffer γ μ) : Prop :=
  st.pcmLeft + queuedPcmBytes st = lockedToRead st.pcm

instance {γ μ : Type} (st : PcmBuffer γ μ) :
    Decidable (pcmAccountingInvariant st) := by
  unfold pcmAccountingInvariant; infer_instance

/-- A fresh PCM buffer: empty 8-byte ring, no rows, open, with the
drop policy (`skip`) disabled. -/
def pcmEx : PcmBuffer Nat Nat :=
  { pcm := mkRingBuffer 8 0, pcmLeft := 0,
    songChanges := List.replicate 8 ⟨none, none, 0⟩,
    songHead := 0, songTail := 0, closed := false, subindex := 0,
    skip := false }

/-- C1: the accounting invariant holds on the fresh buffer, but one
`writePcm` of 4 bytes on the open, skip-disabled buffer breaks it: the
blocking `writeFull` admits all 4 bytes into the ring (occupancy 4),
yet `written = pcm_.closedToWrites() ? data.size() : 0` evaluates the
arms backwards — on a non-closed buffer it yields 0 — so nothing is
credited to `pcm_left` or any row (sum stays 0).  The claim (and the
crediting comments in the source) require all 4 admitted bytes to be
credited, so this is a bug in the code. -/
theorem C1_writePcm_credits_nothing :
    pcmAccountingInvariant pcmEx ∧
    (writePcm pcmEx [9, 9, 9, 9]).map
        (fun st1 => (lockedToRead st1.pcm, st1.pcmLeft + queuedPcmBytes st1))
      = some (4, 0) ∧ (4 : Nat) ≠ 0 := by
  decide

/-- C9: after `close()` has set `closed_`, both `writeMetadata` and
`writePcm` return at their first statement without touching any state:
no row is enqueued, `pcm_left`, `songHead_`/`songTail_` and the byte
ring are all unchanged. -/
theorem C9_closed_writes_are_noops {γ μ : Type} (st : PcmBuffer γ μ)
    (c : Option γ) (md : Option μ) (d : List Nat)
    (h : st.closed = true) :
    writeMetadata st c md = st ∧ writePcm st d = some st := by
  constructor
  · rw [writeMetadata, if_pos h]
  · rw [writePcm, if_pos h]

/-- C9 witness: a closed fresh buffer. -/
theorem C9_closed_writes_are_noops_witness :
    writeMetadata { pcmEx with closed := true } (some 1) (some 2)
      = { pcmEx with closed := true } ∧
    writePcm { pcmEx with closed := true } [3, 4]
      = some { pcmEx with closed := true } :=
  C9_closed_writes_are_noops { pcmEx with closed := true } (some 1) (some 2)
    [3, 4] rfl

/-- C6: `readMetadata` returns a non-empty metadata pointer iff the
current track is fully drained and a row is queued (given that queued
rows hold non-null metadata pointers, as every row written through
`PcmSplitter::metadata` does); otherwise it returns empty and leaves
the state unchanged.  On success it dequeues exactly one row (tail
advances by one modulo the queue size, head unchanged), sets
`pcm_left` to the dequeued row's `pcmBytes`, and publishes a
`CommandAcknowledge` event carrying this buffer's encoder index and the
dequeued row's command. -/
theorem C6_readMetadata_contract {γ μ : Type} (st : PcmBuffer γ μ)
    (hmd : st.songHead ≠ st.songTail →
      (st.songChanges.getD st.songTail ⟨none, none, 0⟩).metadata ≠ none) :
    ((readMetadata st).1 ≠ none ↔
      st.pcmLeft = 0 ∧ st.songHead ≠ st.songTail) ∧
    ((st.songHead = st.songTail ∨ st.pcmLeft ≠ 0) →
      readMetadata st = (none, st, none)) ∧
    (st.pcmLeft = 0 → st.songHead ≠ st.songTail →
      (readMetadata st).1
          = (st.songChanges.getD st.songTail ⟨none, none, 0⟩).metadata ∧
      (readMetadata st).2.1.pcmLeft
          = (st.songChanges.getD st.songTail ⟨none, none, 0⟩).pcmBytes ∧
      (readMetadata st).2.1.songTail
          = (st.songTail + 1) % st.songChanges.length ∧
      (readMetadata st).2.1.songHead = st.songHead ∧
      (readMetadata st).2.2 = some ⟨st.subindex,
        (st.songChanges.getD st.songTail ⟨none, none, 0⟩).command⟩) := by
  by_cases hc : st.songHead = st.songTail ∨ st.pcmLeft ≠ 0
  · rw [readMetadata]
    rw [if_pos hc]
    refine ⟨?_, fun _ => rfl, fun h1 h2 => ?_⟩
    · simp only [ne_eq, not_true_eq_false, false_iff, not_and]
      intro h1 h2
      rcases hc with h | h
      · exact h2 h
      · exact h h1
    · rcases hc with h | h
      · exact absurd h h2
      · exact absurd h1 h
  · push_neg at hc
    obtain ⟨hne, hpl⟩ := hc
    rw [readMetadata]
    rw [if_neg (by push_neg; exact ⟨hne, hpl⟩)]
    refine ⟨?_, fun h => ?_, fun _ _ => ⟨rfl, rfl, rfl, rfl, rfl⟩⟩
    · exact iff_of_true (hmd hne) ⟨hpl, hne⟩
    · rcases h with h | h
      · exact absurd h hne
      · exact absurd hpl h

/-- A buffer with one queued row (command 5, metadata 7, 3 bytes) and
a drained current track. -/
def pcmEx2 : PcmBuffer Nat Nat :=
  { pcmEx with
    songChanges := (List.replicate 8
      (⟨none, none, 0⟩ : PcmBufferRow Nat Nat)).set 0 ⟨some 5, some 7, 3⟩,
    songHead := 1, subindex := 2 }

/-- C6 witness: the contract at `pcmEx2`. -/
theorem C6_readMetadata_contract_witness :
    (((readMetadata pcmEx2).1 ≠ none ↔
      pcmEx2.pcmLeft = 0 ∧ pcmEx2.songHead ≠ pcmEx2.songTail)) ∧
    ((pcmEx2.songHead = pcmEx2.songTail ∨ pcmEx2.pcmLeft ≠ 0) →
      readMetadata pcmEx2 = (none, pcmEx2, none)) ∧
    (pcmEx2.pcmLeft = 0 → pcmEx2.songHead ≠ pcmEx2.songTail →
      (readMetadata pcmEx2).1
          = (pcmEx2.songChanges.getD pcmEx2.songTail ⟨none, none, 0⟩).metadata ∧
      (readMetadata pcmEx2).2.1.pcmLeft
          = (pcmEx2.songChanges.getD pcmEx2.songTail ⟨none, none, 0⟩).pcmBytes ∧
      (readMetadata pcmEx2).2.1.songTail
          = (pcmEx2.songTail + 1) % pcmEx2.songChanges.length ∧
      (readMetadata pcmEx2).2.1.songHead = pcmEx2.songHead ∧
      (readMetadata pcmEx2).2.2 = some ⟨pcmEx2.subindex,
        (pcmEx2.songChanges.getD pcmEx2.songTail ⟨none, none, 0⟩).command⟩) :=
  C6_readMetadata_contract pcmEx2 (by decide)

/-- `exo::Barrier` state: `queued_`, `listeners_`, `visited_`,
`token_`. -/
structure Barrier where
  queued : Nat
  listeners : Nat
  visited : Nat
  token : Nat
  deriving DecidableEq

/-- `isAhead_<T>(lhs, rhs)` for an unsigned type of width `w`:
`CROSSOVER` is `max & ~(max >> 1) = 2 ^ (w - 1)`, and `lhs - rhs` in
the unsigned type is `(lhs + 2^w - rhs) mod 2^w` for operands below
`2^w`.  So the predicate is `(lhs - rhs) mod 2^w < 2^(w-1)`: `lhs` is
ahead of `rhs` in the cyclic order. -/
def isAhead (w lhs rhs : Nat) : Prop :=
  (lhs + 2 ^ w - rhs) % 2 ^ w < 2 ^ (w - 1)

instance (w lhs rhs : Nat) : Decidable (isAhead w lhs rhs) := by
  unfold isAhead; infer_instance

/-- Where `Barrier::sync` leaves the calling thread: it either returned
from the function, or it entered the `barrier_.wait` (the model follows
the source up to the suspension point; what happens after a wake
depends on other threads). -/
inductive SyncResult where
  | returned (st : Barrier)
  | waits (st : Barrier)
  deriving DecidableEq

/-- The tail of `Barrier::sync` after the token branching:
`++queued_`; if `queued_ >= listeners_`, wake all, then
`if (++visited_ >= queued_) visited_ = queued_ = 0` and return;
otherwise wait on the condition variable. -/
def syncEnqueue (st : Barrier) : SyncResult :=
  let st1 := { st with queued := st.queued + 1 }
  if st1.queued ≥ st1.listeners then
    let st2 := { st1 with visited := st1.visited + 1 }
    SyncResult.returned (if st2.visited ≥ st2.queued then
      { st2 with visited := 0, queued := 0 } else st2)
  else SyncResult.waits st1

/-- `Barrier::sync(token)` with token width `w` (`std::size_t`, 64 in
the source): adopt the token when nothing is queued; when queued and
the tokens differ, the source tests `isAhead_(token_, token)` — the
current token against the caller's — adopting and resetting in that
branch and returning (comment: "we have fallen behind. skip.")
otherwise; then enqueue. -/
def sync (w : Nat) (st : Barrier) (token : Nat) : SyncResult :=
  if st.queued = 0 then syncEnqueue { st with token := token }
  else if st.token ≠ token then
    if isAhead w st.token token then
      syncEnqueue { st with token := token, visited := 0, queued := 0 }
    else SyncResult.returned st
  else syncEnqueue st

/-- C2: the claim (and the source's own comments) say: caller's token
ahead of the current one ⇒ adopt it, reset `queued`/`visited`, wake
all, enqueue afresh; caller behind ⇒ return immediately unchanged.
The code tests `isAhead_(token_, token)` — arguments swapped — so with
current token 5 and `queued = 1`: the ahead caller (token 6, and
`ahead(6,5)` holds) is turned away with the state unchanged, while the
behind caller (token 4, `ahead(4,5)` fails) makes the barrier adopt
the older token 4 and reset.  The code contradicts both the spec and
its own comments, so the code is wrong. -/
theorem C2_sync_ahead_behind_swapped :
    isAhead 64 6 5 ∧ ¬ isAhead 64 4 5 ∧
    sync 64 ⟨1, 3, 0, 5⟩ 6 = SyncResult.returned ⟨1, 3, 0, 5⟩ ∧
    sync 64 ⟨1, 3, 0, 5⟩ 4 = SyncResult.waits ⟨1, 3, 0, 4⟩ := by
  decide

namespace BrocaSpec

/-- Modelled from the spec: the publisher operation
`acknowledgeBrocaCommand(index, cmd)` is called by
`BaseBroca::acknowledgeCommand_` in `src/broca/broca.hh`, but its
declaration and definition are absent from the sources (spec section 9:
two versions of the source disagree on whether it exists; it is
mandatory per section 4.7).  Following spec section 4.9, the publisher
holds publish queues (8-slot rings of events, written with the
non-blocking best-effort put), and the event family carries decoder,
encoder and broca acknowledgements. -/
inductive SpecEvent (γ : Type) where
  | decoderAck (command : Option γ)
  | encoderAck (index : Nat) (command : Option γ)
  | brocaAck (index : Nat) (command : Option γ)
  deriving DecidableEq

/-- Modelled from the spec (section 4.9 serialization shape): the
broca arm serializes `{type: "acknowledge", source: "broca", index,
command}`; the decoder and encoder arms are as in the source's
`convertEvent`; a null command is discarded. -/
def convertEventSpec : SpecEvent γ → Option (AckMessage γ)
  | SpecEvent.decoderAck c =>
    match c with
    | none => none
    | some c => some ⟨"acknowledge", "decoder", none, c⟩
  | SpecEvent.encoderAck i c =>
    match c with
    | none => none
    | some c => some ⟨"acknowledge", "encoder", some i, c⟩
  | SpecEvent.brocaAck i c =>
    match c with
    | none => none
    | some c => some ⟨"acknowledge", "broca", some i, c⟩

/-- Modelled from the spec: the publisher's list of publish queues. -/
structure SpecPublisher (γ : Type) where
  queues : List (RingBuffer (SpecEvent γ))

/-- `PublishQueue::push`: the non-blocking `putNoWait`, i.e. a
`writePartial` of one element that silently drops when full. -/
def pushEventQueue (q : RingBuffer (SpecEvent γ)) (ev : SpecEvent γ) :
    RingBuffer (SpecEvent γ) :=
  (writePartial q [ev] 1).2

/-- Modelled from the spec: `acknowledgeBrocaCommand(index, cmd)`
builds a broca acknowledgement event and pushes it to every publish
queue, exactly as `acknowledgeEncoderCommand` does with its event. -/
def acknowledgeBrocaCommand (p : SpecPublisher γ) (index : Nat)
    (command : Option γ) : SpecPublisher γ :=
  { queues := p.queues.map
      (fun q => pushEventQueue q (SpecEvent.brocaAck index command)) }

/-- C4: `acknowledge_broca_command(i, c)` publishes one broca
acknowledgement event to every publish queue; a queue that is open and
not full enqueues it, and its serialization is the acknowledge schema
with source `"broca"`, the index `i` and the original command object.
(Modelled from the spec: the operation's definition is not in the
sources, only its caller.) -/
theorem C4_acknowledgeBrocaCommand_spec {γ : Type} (p : SpecPublisher γ)
    (i : Nat) (c : γ) (q : RingBuffer (SpecEvent γ)) (hwf : q.WF)
    (hroom : lockedToRead q < q.size) :
    (acknowledgeBrocaCommand p i (some c)).queues
        = p.queues.map
            (fun qq => pushEventQueue qq (SpecEvent.brocaAck i (some c))) ∧
    contents (pushEventQueue q (SpecEvent.brocaAck i (some c)))
        = contents q ++ [SpecEvent.brocaAck i (some c)] ∧
    convertEventSpec (SpecEvent.brocaAck i (some c))
        = some ⟨"acknowledge", "broca", some i, c⟩ := by
  refine ⟨rfl, ?_, rfl⟩
  obtain ⟨hn, _, _, _, _, _, hcont⟩ :=
    lockedXferToBuffer_spec [SpecEvent.brocaAck i (some c)] 1 hwf (by simp)
  have hwrw : lockedToWrite q = q.size - lockedToRead q := rfl
  have hm : min 1 (lockedToWrite q) = 1 := by omega
  rw [hm] at hcont
  rw [pushEventQueue, writePartial]
  simp only []
  rw [hcont]
  simp

/-- C4 witness: a publisher with one queue of capacity 8 holding one
event, index 3, command 42. -/
theorem C4_acknowledgeBrocaCommand_spec_witness :
    (acknowledgeBrocaCommand
        ⟨[mkRingBuffer 8 (SpecEvent.decoderAck (none : Option Nat))]⟩ 3
        (some 42)).queues
        = [mkRingBuffer 8 (SpecEvent.decoderAck (none : Option Nat))].map
            (fun qq => pushEventQueue qq (SpecEvent.brocaAck 3 (some 42))) ∧
    contents (pushEventQueue
        (mkRingBuffer 8 (SpecEvent.decoderAck (none : Option Nat)))
        (SpecEvent.brocaAck 3 (some 42)))
        = contents (mkRingBuffer 8 (SpecEvent.decoderAck (none : Option Nat)))
          ++ [SpecEvent.brocaAck 3 (some 42)] ∧
    convertEventSpec (SpecEvent.brocaAck 3 (some (42 : Nat)))
        = some ⟨"acknowledge", "broca", some 3, 42⟩ :=
  C4_acknowledgeBrocaCommand_spec
    ⟨[mkRingBuffer 8 (SpecEvent.decoderAck (none : Option Nat))]⟩ 3 42
    (mkRingBuffer 8 (SpecEvent.decoderAck (none : Option Nat)))
    (by decide) (by decide)

end BrocaSpec

end Exo
